import Mathlib

/-!
# A shallow embedding of the crocoddyl DDP solver (`SolverDDP`)

The repository ships the solver interface in
`include/crocoddyl/core/solvers/ddp.hpp`: the class `SolverDDP` with its
operations (`solve`, `computeDirection`, `tryStep`, `stoppingCriteria`,
`expectedImprovement`), its private algorithm steps (`calc`, `backwardPass`,
`forwardPass`, `computeGains`, `increaseRegularization`,
`decreaseRegularization`, `allocateData`) and its data members
(`regfactor_`, `regmin_`, `regmax_`, `cost_try_`, `xs_try_`, `us_try_`,
`dx_`, `Vxx_`, `Vx_`, `Qxx_`, `Qxu_`, `Quu_`, `Qx_`, `Qu_`, `K_`, `k_`,
`gaps_`, `xnext_`, `alphas_`, `th_grad_`, `th_step_`, `was_feasible_`).
The executable bodies of these operations are not part of the sources, so
the algorithm below is modelled from the specification's description of the
backward Riccati pass, the forward line search, the regularization manager
and the outer solve loop.  Machine floating point is modelled by exact
rationals; the state manifold, declared out of scope by the specification,
is modelled as the Euclidean manifold (difference is subtraction).
-/

namespace Crocoddyl

/-- State-space and control-space vectors are finite tuples of rationals. -/
abbrev Vec (n : ℕ) : Type := Fin n → ℚ

/-- Dense rational matrices. -/
abbrev Mat (m n : ℕ) : Type := Matrix (Fin m) (Fin n) ℚ

/-- Computable determinant by Laplace expansion along the first column.
Used only inside the positive-definiteness test and the linear solve of the
factorization primitive, which the specification treats as an external
dense linear-algebra primitive. -/
def detQ : (n : ℕ) → Mat n n → ℚ
  | 0, _ => 1
  | n + 1, M =>
      ∑ i : Fin (n + 1),
        (-1) ^ (i : ℕ) * M i 0 * detQ n (M.submatrix i.succAbove Fin.succ)

/-- Computable adjugate (transposed cofactor matrix). -/
def adjQ : (n : ℕ) → Mat n n → Mat n n
  | 0, _ => 1
  | n + 1, M =>
      Matrix.of fun i j =>
        (-1) ^ ((i : ℕ) + (j : ℕ)) * detQ n (M.submatrix j.succAbove i.succAbove)

/-- Modelled from the spec: the positive-definite (Cholesky) factorization
test of the dense linear-algebra layer, which is not part of the sources.
A symmetric matrix admits a Cholesky factorization exactly when all its
leading principal minors are positive (Sylvester's criterion). -/
def posDefCheck {n : ℕ} (M : Mat n n) : Bool :=
  decide (∀ k : Fin n,
    0 < detQ (k + 1) (M.submatrix (Fin.castLE k.isLt) (Fin.castLE k.isLt)))

/-- Solve `A⁻¹ ⬝ B` through the factorization primitive (Cramer form);
only ever applied after `posDefCheck` has succeeded. -/
def matSolve {n m : ℕ} (A : Mat n n) (B : Mat n m) : Mat n m :=
  ((detQ n A)⁻¹ • adjQ n A) * B

/-- Solve `A⁻¹ ⬝ b` for a vector right-hand side. -/
def vecSolve {n : ℕ} (A : Mat n n) (b : Vec n) : Vec n :=
  ((detQ n A)⁻¹ • adjQ n A).mulVec b

/-- Symmetrization used by the backward pass on each Riccati Hessian. -/
def symmetrize {n : ℕ} (M : Mat n n) : Mat n n :=
  (2 : ℚ)⁻¹ • (M + M.transpose)

/-- Modelled from the spec: the problem/model provider (`ShootingProblem`
with its action models), an external collaborator whose implementation is
not among the sources.  Per stage `t < T` it exposes the dynamics, the
running cost and their first/second derivatives, and for the terminal
stage the cost and its derivatives only.  Dimensions are held fixed
across stages. -/
structure ShootingProblem (nx nu : ℕ) where
  T : ℕ
  x0 : Vec nx
  f : ℕ → Vec nx → Vec nu → Vec nx
  cost : ℕ → Vec nx → Vec nu → ℚ
  costT : Vec nx → ℚ
  Fx : ℕ → Vec nx → Vec nu → Mat nx nx
  Fu : ℕ → Vec nx → Vec nu → Mat nx nu
  Lx : ℕ → Vec nx → Vec nu → Vec nx
  Lu : ℕ → Vec nx → Vec nu → Vec nu
  Lxx : ℕ → Vec nx → Vec nu → Mat nx nx
  Lxu : ℕ → Vec nx → Vec nu → Mat nx nu
  Luu : ℕ → Vec nx → Vec nu → Mat nu nu
  LxT : Vec nx → Vec nx
  LxxT : Vec nx → Mat nx nx

/-- The solver's configuration constants (`regfactor_`, `regmin_`,
`regmax_`, `alphas_`, `th_grad_`, the acceptance-band edge and the
stationarity tolerance of the base class).  `th_tol` is the tolerance of
the monotonicity guarantee: the near-plateau fallback acceptance admits a
trial step only when its cost increase stays within `th_tol`. -/
structure DDPParams where
  regfactor : ℚ
  regmin : ℚ
  regmax : ℚ
  th_acceptstep : ℚ
  th_grad : ℚ
  th_stop : ℚ
  th_tol : ℚ
  alphas : List ℚ

/-- Modelled from the spec: the default line-search schedule, a fixed
descending sequence of candidate step lengths starting at `1` and halving. -/
def alphasDefault : List ℚ :=
  (List.range 10).map fun j => ((2 : ℚ)⁻¹) ^ j

/-- Default configuration of the solver. -/
def defaultParams : DDPParams where
  regfactor := 10
  regmin := 1 / 1000000000
  regmax := 1000000000
  th_acceptstep := 1 / 10
  th_grad := 1 / 1000000000000
  th_stop := 1 / 1000000000
  th_tol := 0
  alphas := alphasDefault

/-- The mutable state of one `SolverDDP` instance: the current candidate
trajectory and its cost, the regularization scalar, the feasibility flags,
the trial buffers (`cost_try_`, `xs_try_`, `us_try_`), the value-function
and action-value expansions, the gains, the gaps, and the cached
expected-improvement pair `d`. -/
structure DDPState (nx nu : ℕ) where
  xs : List (Vec nx)
  us : List (Vec nu)
  cost : ℚ
  reg : ℚ
  feasible : Bool
  was_feasible : Bool
  cost_try : ℚ
  xs_try : List (Vec nx)
  us_try : List (Vec nu)
  gaps : List (Vec nx)
  Vxx : List (Mat nx nx)
  Vx : List (Vec nx)
  Qxx : List (Mat nx nx)
  Qxu : List (Mat nx nu)
  Quu : List (Mat nu nu)
  Qx : List (Vec nx)
  Qu : List (Vec nu)
  K : List (Mat nu nx)
  k : List (Vec nu)
  d : ℚ × ℚ

/-- Total cost of a candidate trajectory: the problem's running costs over
all stages plus the terminal cost. -/
def totalCost {nx nu : ℕ} (prob : ShootingProblem nx nu)
    (xs : List (Vec nx)) (us : List (Vec nu)) : ℚ :=
  ((List.range prob.T).map fun t =>
      prob.cost t (xs.getD t 0) (us.getD t 0)).sum
  + prob.costT (xs.getD prob.T 0)

/-- Modelled from the spec: the per-stage dynamics defects (`gaps_`) of the
stored trajectory; the zero vector at every stage when the trajectory is
feasible. -/
def computeGaps {nx nu : ℕ} (prob : ShootingProblem nx nu)
    (xs : List (Vec nx)) (us : List (Vec nu)) (feasible : Bool) :
    List (Vec nx) :=
  if feasible then List.replicate (prob.T + 1) 0
  else
    (prob.x0 - xs.getD 0 0) ::
      ((List.range prob.T).map fun t =>
        prob.f t (xs.getD t 0) (us.getD t 0) - xs.getD (t + 1) 0)

/-- Modelled from the spec: `calc()` — evaluate the cost and the gaps of
the current candidate trajectory. -/
def calcOp {nx nu : ℕ} (prob : ShootingProblem nx nu)
    (st : DDPState nx nu) : DDPState nx nu :=
  { st with
    cost := totalCost prob st.xs st.us
    gaps := computeGaps prob st.xs st.us st.feasible }

/-- The running output of the backward recursion: per-stage value-function
expansions, action-value expansions and gains for the stages already
processed (ordered by increasing stage index), and the accumulated
expected-improvement pair. -/
structure BwdAcc (nx nu : ℕ) where
  Vxx : List (Mat nx nx)
  Vx : List (Vec nx)
  Qxx : List (Mat nx nx)
  Qxu : List (Mat nx nu)
  Quu : List (Mat nu nu)
  Qx : List (Vec nx)
  Qu : List (Vec nu)
  K : List (Mat nu nx)
  k : List (Vec nu)
  d1 : ℚ
  d2 : ℚ

/-- Modelled from the spec: one stage of the backward pass (`backwardPass`
together with `computeGains`).  Forms the action-value expansion at stage
`t` from the stage derivatives and the next stage's value function (with
the gap correction on the transported value gradient), adds the current
regularization to the control-control block, attempts the
positive-definite factorization — failing the whole pass if it fails —
and otherwise computes the gains by the factorization, performs the
closed-form Riccati update, symmetrizes the new value Hessian, and
accumulates the expected-improvement contributions of this stage. -/
def bwdStep {nx nu : ℕ} (prob : ShootingProblem nx nu)
    (xs : List (Vec nx)) (us : List (Vec nu)) (gaps : List (Vec nx))
    (reg : ℚ) (t : ℕ) (acc : BwdAcc nx nu) : Option (BwdAcc nx nu) :=
  let x := xs.getD t 0
  let u := us.getD t 0
  let Vxn := acc.Vxx.headI
  let Vn := acc.Vx.headI + Vxn.mulVec (gaps.getD (t + 1) 0)
  let Fx := prob.Fx t x u
  let Fu := prob.Fu t x u
  let Qx := prob.Lx t x u + Fx.transpose.mulVec Vn
  let Qu := prob.Lu t x u + Fu.transpose.mulVec Vn
  let Qxx := prob.Lxx t x u + Fx.transpose * Vxn * Fx
  let Qxu := prob.Lxu t x u + Fx.transpose * Vxn * Fu
  let Quu := prob.Luu t x u + Fu.transpose * Vxn * Fu
  let QuuReg := Quu + reg • (1 : Mat nu nu)
  if posDefCheck QuuReg then
    let K := matSolve QuuReg Qxu.transpose
    let kff := vecSolve QuuReg Qu
    let VxNew := Qx - K.transpose.mulVec Qu
    let VxxNew := symmetrize (Qxx - Qxu * K)
    some
      { Vxx := VxxNew :: acc.Vxx
        Vx := VxNew :: acc.Vx
        Qxx := Qxx :: acc.Qxx
        Qxu := Qxu :: acc.Qxu
        Quu := Quu :: acc.Quu
        Qx := Qx :: acc.Qx
        Qu := Qu :: acc.Qu
        K := K :: acc.K
        k := kff :: acc.k
        d1 := acc.d1 + Matrix.dotProduct Qu kff
        d2 := acc.d2 + Matrix.dotProduct kff (Quu.mulVec kff) }
  else none

/-- Modelled from the spec: the backward recursion after processing the
last `n` stages (`t = T - 1` down to `t = T - n`), starting from the
terminal value function given by the terminal cost derivatives.  The
whole pass aborts (`none`) as soon as the factorization fails at any
stage. -/
def bwdRec {nx nu : ℕ} (prob : ShootingProblem nx nu)
    (xs : List (Vec nx)) (us : List (Vec nu)) (gaps : List (Vec nx))
    (reg : ℚ) : ℕ → Option (BwdAcc nx nu)
  | 0 =>
      some
        { Vxx := [prob.LxxT (xs.getD prob.T 0)]
          Vx := [prob.LxT (xs.getD prob.T 0)]
          Qxx := [], Qxu := [], Quu := [], Qx := [], Qu := [], K := [], k := []
          d1 := 0, d2 := 0 }
  | n + 1 =>
      (bwdRec prob xs us gaps reg n).bind
        (bwdStep prob xs us gaps reg (prob.T - (n + 1)))

/-- Modelled from the spec: the full backward pass over all `T` stages. -/
def bwdFull {nx nu : ℕ} (prob : ShootingProblem nx nu)
    (xs : List (Vec nx)) (us : List (Vec nu)) (gaps : List (Vec nx))
    (reg : ℚ) : Option (BwdAcc nx nu) :=
  bwdRec prob xs us gaps reg prob.T

/-- Boolean form of the backward-pass invariant: whenever the recursion
delivers gains, every stored control-control block, after adding the
regularization used by the pass, passes the positive-definite test. -/
def bwdQuuOk {nx nu : ℕ} (prob : ShootingProblem nx nu)
    (xs : List (Vec nx)) (us : List (Vec nu)) (gaps : List (Vec nx))
    (reg : ℚ) (n : ℕ) : Bool :=
  match bwdRec prob xs us gaps reg n with
  | none => true
  | some acc => acc.Quu.all fun Q => posDefCheck (Q + reg • (1 : Mat nu nu))

/-- The state on which the backward pass operates: the candidate with
refreshed cost and gaps when `recalc` is set, the unchanged state
otherwise. -/
def precalc {nx nu : ℕ} (prob : ShootingProblem nx nu)
    (st : DDPState nx nu) (recalc : Bool) : DDPState nx nu :=
  if recalc then calcOp prob st else st

/-- Modelled from the spec: `computeDirection` — optionally re-evaluate
the trajectory cost and gaps (`recalc`), then run the backward pass,
storing its per-stage output and the expected-improvement pair in the
solver state; `none` signals a factorization failure, with the ingoing
state untouched. -/
def computeDirection {nx nu : ℕ} (prob : ShootingProblem nx nu)
    (st : DDPState nx nu) (recalc : Bool := true) : Option (DDPState nx nu) :=
  let st1 := precalc prob st recalc
  match bwdFull prob st1.xs st1.us st1.gaps st1.reg with
  | none => none
  | some acc =>
      some
        { st1 with
          Vxx := acc.Vxx, Vx := acc.Vx
          Qxx := acc.Qxx, Qxu := acc.Qxu, Quu := acc.Quu
          Qx := acc.Qx, Qu := acc.Qu
          K := acc.K, k := acc.k
          d := (acc.d1, acc.d2) }

/-- Modelled from the spec: the stationarity measure — an aggregate over
the stages of the magnitude of the feedforward term weighted by the
action-value gradient, read off the stored backward-pass output. -/
def stopOf {nx nu : ℕ} (st : DDPState nx nu) : ℚ :=
  ((st.k.zip st.Qu).map fun su => |Matrix.dotProduct su.1 su.2|).sum

/-- `stoppingCriteria()`: returns the stationarity measure and leaves the
solver state unchanged. -/
def stoppingCriteriaOp {nx nu : ℕ} (st : DDPState nx nu) :
    ℚ × DDPState nx nu :=
  (stopOf st, st)

/-- `expectedImprovement()`: returns the cached expected-improvement pair
of the most recent backward pass and leaves the solver state unchanged. -/
def expectedImprovementOp {nx nu : ℕ} (st : DDPState nx nu) :
    (ℚ × ℚ) × DDPState nx nu :=
  (st.d, st)

/-- The expected improvement predicted for a step length: the linear
coefficient times the step plus one half of the quadratic coefficient
times the squared step. -/
def expImp (d : ℚ × ℚ) (a : ℚ) : ℚ :=
  a * d.1 + (2 : ℚ)⁻¹ * a ^ 2 * d.2

/-- Modelled from the spec: one forward-rollout stage.  The running tuple
carries the trial state reached so far, the state deviation from the
stored trajectory, and the trial state/control sequences built so far in
reverse.  The control correction is the gains applied to the deviation,
scaled by the step length; the next deviation is the difference between
the rolled-out next state and the stored next state, plus `(1 - a)` times
the stored gap when the trajectory is infeasible. -/
def fwdStage {nx nu : ℕ} (prob : ShootingProblem nx nu)
    (st : DDPState nx nu) (a : ℚ)
    (cur : Vec nx × Vec nx × List (Vec nx) × List (Vec nu)) (t : ℕ) :
    Vec nx × Vec nx × List (Vec nx) × List (Vec nu) :=
  let xh := cur.1
  let dx := cur.2.1
  let uh := st.us.getD t 0 - a • (st.k.getD t 0 + (st.K.getD t 0).mulVec dx)
  let xn := prob.f t xh uh
  let dxn := (xn - st.xs.getD (t + 1) 0) +
    (if st.feasible then 0 else (1 - a) • st.gaps.getD (t + 1) 0)
  (xn, dxn, xn :: cur.2.2.1, uh :: cur.2.2.2)

/-- Modelled from the spec: the forward rollout at one step length
(`forwardPass`/`tryStep`).  The initial deviation is zero, or minus the
initial gap when infeasible; the total trial cost is evaluated by the
problem's cost functions over the full trial trajectory.  Returns the
actual-improvement-ready trial cost and the trial sequences. -/
def tryStepRun {nx nu : ℕ} (prob : ShootingProblem nx nu)
    (st : DDPState nx nu) (a : ℚ) :
    ℚ × List (Vec nx) × List (Vec nu) :=
  let dx0 : Vec nx := if st.feasible then 0 else -(st.gaps.getD 0 0)
  let x0 : Vec nx := st.xs.getD 0 0 + dx0
  let r := (List.range prob.T).foldl (fwdStage prob st a) (x0, dx0, [x0], [])
  let xsTry := r.2.2.1.reverse
  let usTry := r.2.2.2.reverse
  (totalCost prob xsTry usTry, xsTry, usTry)

/-- `tryStep`: run the forward rollout at the given step length, store the
trial trajectory and trial cost in the solver state, and return the actual
improvement — current cost minus trial cost. -/
def tryStepOp {nx nu : ℕ} (prob : ShootingProblem nx nu)
    (st : DDPState nx nu) (steplength : ℚ := 1) : ℚ × DDPState nx nu :=
  let r := tryStepRun prob st steplength
  (st.cost - r.1,
   { st with cost_try := r.1, xs_try := r.2.1, us_try := r.2.2 })

/-- Modelled from the spec: the line-search acceptance test.  A step is
accepted when the actual improvement `dV` reaches the acceptance-band
fraction of a positive expected improvement `dVexp`, or — as the
numerical-robustness fallback on a near-converged plateau — when the
expected improvement is within `th_grad` of zero, the stationarity
measure is below its threshold, and the cost increase stays within the
monotonicity tolerance. -/
def stepAccepted (p : DDPParams) (stop dVexp dV : ℚ) : Bool :=
  (decide (0 < dVexp) && decide (p.th_acceptstep * dVexp ≤ dV)) ||
  (decide (|dVexp| ≤ p.th_grad) && decide (stop < p.th_stop) &&
   decide (-p.th_tol ≤ dV))

/-- Whether the trial at step length `a` from state `st` is accepted. -/
def lsAccept {nx nu : ℕ} (prob : ShootingProblem nx nu) (p : DDPParams)
    (st : DDPState nx nu) (a : ℚ) : Bool :=
  stepAccepted p (stopOf st) (expImp st.d a)
    (st.cost - (tryStepRun prob st a).1)

/-- Modelled from the spec: the line search — try the candidate step
lengths in order and return the first accepted one together with the
state holding its trial trajectory, or `none` when the schedule is
exhausted. -/
def lineSearch {nx nu : ℕ} (prob : ShootingProblem nx nu) (p : DDPParams)
    (st : DDPState nx nu) : List ℚ → Option (ℚ × DDPState nx nu)
  | [] => none
  | a :: rest =>
      if lsAccept prob p st a then some (a, (tryStepOp prob st a).2)
      else lineSearch prob p st rest

/-- `increaseRegularization`: multiply by the fixed factor and clip to the
configured maximum. -/
def increaseRegularization (p : DDPParams) (r : ℚ) : ℚ :=
  min (r * p.regfactor) p.regmax

/-- `decreaseRegularization`: divide by the same factor and clip to the
configured minimum. -/
def decreaseRegularization (p : DDPParams) (r : ℚ) : ℚ :=
  max (r / p.regfactor) p.regmin

/-- An abstract regularization command, for stating that any sequence of
increase/decrease operations keeps the level within its bounds. -/
inductive RegOp where
  | inc : RegOp
  | dec : RegOp

/-- Apply a sequence of regularization commands to the scalar level. -/
def applyRegOps (p : DDPParams) (ops : List RegOp) (r : ℚ) : ℚ :=
  ops.foldl (fun s op => match op with
    | RegOp.inc => increaseRegularization p s
    | RegOp.dec => decreaseRegularization p s) r

/-- Modelled from the spec: acceptance of a line-search step — adopt the
trial trajectory and cost as current, update the feasibility flags, and
decrease the regularization. -/
def acceptStep {nx nu : ℕ} (p : DDPParams) (st : DDPState nx nu) :
    DDPState nx nu :=
  { st with
    xs := st.xs_try, us := st.us_try, cost := st.cost_try
    was_feasible := st.feasible, feasible := true
    reg := decreaseRegularization p st.reg }

/-- Modelled from the spec: the part of an outer iteration after a
successful backward pass — run the line search; on success adopt the
step, on exhaustion leave the trajectory and cost untouched and increase
the regularization for the next outer iteration. -/
def outerBody {nx nu : ℕ} (prob : ShootingProblem nx nu) (p : DDPParams)
    (st : DDPState nx nu) : DDPState nx nu :=
  match lineSearch prob p st p.alphas with
  | some r => acceptStep p r.2
  | none => { st with reg := increaseRegularization p st.reg }

/-- Modelled from the spec: the regularization-retry loop around the
backward pass.  A factorization failure aborts the pass; if the
regularization already saturates its maximum the solve fails with
non-convergence (`none`), otherwise the level is strictly increased and
the whole backward pass restarts from the terminal stage (with the
derivatives kept, `recalc = false`). -/
def regRetry {nx nu : ℕ} (prob : ShootingProblem nx nu) (p : DDPParams) :
    ℕ → Bool → DDPState nx nu → Option (DDPState nx nu)
  | 0, _, _ => none
  | fuel + 1, recalc, st =>
      match computeDirection prob st recalc with
      | some st1 => some st1
      | none =>
          if p.regmax ≤ st.reg then none
          else regRetry prob p fuel false
            { st with reg := increaseRegularization p st.reg }

/-- Retry budget of the regularization loop; the loop stops on its own as
soon as the level saturates the configured maximum. -/
def regRetryFuel : ℕ := 1000000

/-- Modelled from the spec: the outer solve loop.  Each iteration runs the
backward pass inside its regularization-retry loop, then the forward line
search, then checks the stationarity measure against its tolerance;
returns whether the tolerance was reached before the budget ran out,
together with the final solver state. -/
def solveLoop {nx nu : ℕ} (prob : ShootingProblem nx nu) (p : DDPParams) :
    ℕ → DDPState nx nu → Bool × DDPState nx nu
  | 0, st => (false, st)
  | n + 1, st =>
      match regRetry prob p regRetryFuel true st with
      | none => (false, st)
      | some st1 =>
          let st2 := outerBody prob p st1
          if stopOf st2 < p.th_stop then (true, st2)
          else solveLoop prob p n st2

/-- The empty-sequence sentinel used for the optional initial trajectory
arguments of `solve`. -/
def DEFAULT_VECTOR {n : ℕ} : List (Vec n) := []

/-- Modelled from the spec: the default initial state sequence — a
simulated rollout of the given controls from the problem's initial
state. -/
def rolloutFrom {nx nu : ℕ} (prob : ShootingProblem nx nu)
    (us : List (Vec nu)) : List (Vec nx) :=
  ((List.range prob.T).foldl
    (fun l t => prob.f t l.headI (us.getD t 0) :: l) [prob.x0]).reverse

/-- Modelled from the spec: `solve` — install the candidate trajectory
(resolving the empty sentinels to zero controls and a simulated rollout),
set the initial feasibility flag and regularization level, and run the
outer loop for at most `maxiter` iterations.  The declared defaults are
those of the header: empty sentinels, `maxiter = 100`,
`is_feasible = false`, `regInit = 1e-9`. -/
def solve {nx nu : ℕ} (prob : ShootingProblem nx nu) (p : DDPParams)
    (st : DDPState nx nu)
    (init_xs : List (Vec nx) := DEFAULT_VECTOR)
    (init_us : List (Vec nu) := DEFAULT_VECTOR)
    (maxiter : ℕ := 100) (is_feasible : Bool := false)
    (regInit : ℚ := 1 / 1000000000) : Bool × DDPState nx nu :=
  let us0 := if init_us.isEmpty then List.replicate prob.T 0 else init_us
  let xs0 := if init_xs.isEmpty then rolloutFrom prob us0 else init_xs
  let st0 :=
    { st with
      xs := xs0, us := us0, cost := totalCost prob xs0 us0
      feasible := is_feasible, was_feasible := false, reg := regInit }
  solveLoop prob p maxiter st0

/-- Shape well-formedness of a solver state: the state sequences have
length horizon plus one and the control sequences have length horizon,
for both the current and the trial trajectory. -/
def Wf {nx nu : ℕ} (prob : ShootingProblem nx nu)
    (st : DDPState nx nu) : Prop :=
  st.xs.length = prob.T + 1 ∧ st.us.length = prob.T ∧
  st.xs_try.length = prob.T + 1 ∧ st.us_try.length = prob.T

/-- The stored cost agrees with the evaluated cost of the stored
trajectory. -/
def CostConsistent {nx nu : ℕ} (prob : ShootingProblem nx nu)
    (st : DDPState nx nu) : Prop :=
  st.cost = totalCost prob st.xs st.us

/-!  Concrete fixtures used by the witness theorems: a one-dimensional
one-stage problem with linear dynamics and quadratic costs, a variant
whose control-control Hessian is negative (so that the factorization must
fail), and small solver states and configurations. -/

/-- Witness problem: `T = 1`, dynamics `x + u`, quadratic costs. -/
def probW : ShootingProblem 1 1 where
  T := 1
  x0 := fun _ => 1
  f := fun _ x u => x + u
  cost := fun _ x u => x 0 ^ 2 + u 0 ^ 2
  costT := fun x => x 0 ^ 2
  Fx := fun _ _ _ => 1
  Fu := fun _ _ _ => 1
  Lx := fun _ x _ => (2 : ℚ) • x
  Lu := fun _ _ u => (2 : ℚ) • u
  Lxx := fun _ _ _ => (2 : ℚ) • (1 : Mat 1 1)
  Lxu := fun _ _ _ => 0
  Luu := fun _ _ _ => (2 : ℚ) • (1 : Mat 1 1)
  LxT := fun x => (2 : ℚ) • x
  LxxT := fun _ => (2 : ℚ) • (1 : Mat 1 1)

/-- Witness problem with an indefinite control-control Hessian: the
positive-definite factorization fails at every regularization level up to
the configured maximum of `paramsW`. -/
def probB : ShootingProblem 1 1 :=
  { probW with
    Luu := fun _ _ _ => (-10 : ℚ) • (1 : Mat 1 1)
    Fu := fun _ _ _ => 0 }

/-- Witness configuration. -/
def paramsW : DDPParams where
  regfactor := 2
  regmin := 1 / 10
  regmax := 5
  th_acceptstep := 1 / 10
  th_grad := 1 / 1000000
  th_stop := 1 / 1000000
  th_tol := 0
  alphas := [1, 1 / 2]

/-- Witness configuration under which no step length can be accepted:
the acceptance band is unreachable and the fallback threshold is zero. -/
def paramsR : DDPParams :=
  { paramsW with th_acceptstep := 1000, th_stop := 0 }

/-- Witness state sequence. -/
def xsW : List (Vec 1) := [fun _ => 1, fun _ => 1]

/-- Witness control sequence. -/
def usW : List (Vec 1) := [fun _ => 0]

/-- Witness solver state: a feasible candidate with consistent cost. -/
def stateW : DDPState 1 1 where
  xs := xsW
  us := usW
  cost := totalCost probW xsW usW
  reg := 1 / 10
  feasible := true
  was_feasible := false
  cost_try := 0
  xs_try := [fun _ => 0, fun _ => 0]
  us_try := [fun _ => 0]
  gaps := [0, 0]
  Vxx := []
  Vx := []
  Qxx := []
  Qxu := []
  Quu := []
  Qx := []
  Qu := []
  K := []
  k := []
  d := (0, 0)

/-- Witness solver state whose regularization sits at the configured
maximum of `paramsW`. -/
def stateB : DDPState 1 1 := { stateW with reg := 5 }

/-- The witness state after one successful `computeDirection`. -/
def stateW1 : DDPState 1 1 := (computeDirection probW stateW true).getD stateW

/-! ## Helper lemmas -/

theorem increaseRegularization_bounds (p : DDPParams) (r : ℚ)
    (hmin0 : 0 ≤ p.regmin) (hmm : p.regmin ≤ p.regmax) (hf : 1 ≤ p.regfactor)
    (hlo : p.regmin ≤ r) (hhi : r ≤ p.regmax) :
    p.regmin ≤ increaseRegularization p r ∧
      increaseRegularization p r ≤ p.regmax := by
  unfold increaseRegularization
  refine ⟨le_min (hlo.trans (le_mul_of_one_le_right (hmin0.trans hlo) hf)) hmm,
    min_le_right _ _⟩

theorem decreaseRegularization_bounds (p : DDPParams) (r : ℚ)
    (hmin0 : 0 ≤ p.regmin) (hmm : p.regmin ≤ p.regmax) (hf : 1 ≤ p.regfactor)
    (hlo : p.regmin ≤ r) (hhi : r ≤ p.regmax) :
    p.regmin ≤ decreaseRegularization p r ∧
      decreaseRegularization p r ≤ p.regmax := by
  unfold decreaseRegularization
  refine ⟨le_max_right _ _,
    max_le ((div_le_self (hmin0.trans hlo) hf).trans hhi) hmm⟩

theorem bwdQuuOk_true {nx nu : ℕ} (prob : ShootingProblem nx nu)
    (xs : List (Vec nx)) (us : List (Vec nu)) (gaps : List (Vec nx))
    (reg : ℚ) (n : ℕ) : bwdQuuOk prob xs us gaps reg n = true := by
  induction n with
  | zero => simp [bwdQuuOk, bwdRec]
  | succ n ih =>
      unfold bwdQuuOk at ih ⊢
      cases hb : bwdRec prob xs us gaps reg n with
      | none => simp [bwdRec, hb]
      | some acc =>
          rw [hb] at ih
          have ih2 : (acc.Quu.all fun Q => posDefCheck (Q + reg • 1)) = true := ih
          unfold bwdRec
          rw [hb]
          simp only [Option.some_bind]
          simp only [bwdStep]
          split
          · rfl
          · next acc2 heq =>
              split at heq
              · next hpd =>
                  cases heq
                  simp only [List.all_cons, Bool.and_eq_true]
                  exact ⟨by simpa using hpd, by simpa using ih2⟩
              · exact absurd heq (by simp)

theorem regRetry_retries_with_increased_reg {nx nu : ℕ}
    (prob : ShootingProblem nx nu) (p : DDPParams) (st : DDPState nx nu)
    (recalc : Bool) (fuel : ℕ)
    (h : computeDirection prob st recalc = none) (hlt : st.reg < p.regmax) :
    regRetry prob p (fuel + 1) recalc st =
      regRetry prob p fuel false
        { st with reg := increaseRegularization p st.reg } := by
  simp only [regRetry]
  rw [h]
  simp [not_le.mpr hlt]

/-! ## Claim theorems -/

/-- C3: the regularization level is a single scalar that, after any
sequence of increase and decrease operations, remains within its
configured `[regmin, regmax]` bounds; `increaseRegularization` multiplies
by the fixed factor and clips to the maximum, `decreaseRegularization`
divides by the same factor and clips to the minimum. -/
theorem regularization_stays_bounded (p : DDPParams) (r : ℚ)
    (hmin0 : 0 ≤ p.regmin) (hmm : p.regmin ≤ p.regmax) (hf : 1 ≤ p.regfactor)
    (hlo : p.regmin ≤ r) (hhi : r ≤ p.regmax) (ops : List RegOp) :
    p.regmin ≤ applyRegOps p ops r ∧ applyRegOps p ops r ≤ p.regmax := by
  induction ops generalizing r with
  | nil => exact ⟨hlo, hhi⟩
  | cons op rest ih =>
      cases op with
      | inc =>
          have h := increaseRegularization_bounds p r hmin0 hmm hf hlo hhi
          simpa [applyRegOps] using ih _ h.1 h.2
      | dec =>
          have h := decreaseRegularization_bounds p r hmin0 hmm hf hlo hhi
          simpa [applyRegOps] using ih _ h.1 h.2

/-- Witness for C3: the bounds hold on the concrete configuration
`paramsW` after an increase followed by a decrease from level `1/2`. -/
theorem regularization_stays_bounded_witness :
    paramsW.regmin ≤ applyRegOps paramsW [RegOp.inc, RegOp.dec] (1 / 2) ∧
      applyRegOps paramsW [RegOp.inc, RegOp.dec] (1 / 2) ≤ paramsW.regmax :=
  regularization_stays_bounded paramsW (1 / 2)
    (by with_unfolding_all decide) (by with_unfolding_all decide)
    (by with_unfolding_all decide) (by with_unfolding_all decide)
    (by with_unfolding_all decide) [RegOp.inc, RegOp.dec]

/-- C1: if the positive-definite factorization of the regularized
control-control block fails at any stage, the whole backward pass is
aborted and, unless the regularization already sits at its configured
maximum — in which case the solve fails with non-convergence — the level
is strictly increased and the entire pass restarts from the terminal
stage; consequently, whenever gains are stored for a stage, the
regularized control-control block of that stage passes the
positive-definite test. -/
theorem backwardPass_factorization_protocol {nx nu : ℕ}
    (prob : ShootingProblem nx nu) (p : DDPParams) (st : DDPState nx nu)
    (recalc : Bool) (fuel n : ℕ) (xs : List (Vec nx)) (us : List (Vec nu))
    (gaps : List (Vec nx)) (reg : ℚ) :
    bwdQuuOk prob xs us gaps reg n = true ∧
    ((computeDirection prob st recalc).isNone = true → st.reg < p.regmax →
      1 < p.regfactor → 0 < st.reg →
      regRetry prob p (fuel + 1) recalc st =
        regRetry prob p fuel false
          { st with reg := increaseRegularization p st.reg } ∧
      st.reg < increaseRegularization p st.reg) ∧
    ((computeDirection prob st recalc).isNone = true → p.regmax ≤ st.reg →
      regRetry prob p (fuel + 1) recalc st = none) ∧
    ((regRetry prob p regRetryFuel true st).isNone = true →
      solveLoop prob p (n + 1) st = (false, st)) := by
  refine ⟨bwdQuuOk_true prob xs us gaps reg n, ?_, ?_, ?_⟩
  · intro h hlt hf hr
    have hcd : computeDirection prob st recalc = none :=
      Option.isNone_iff_eq_none.mp h
    refine ⟨regRetry_retries_with_increased_reg prob p st recalc fuel hcd hlt, ?_⟩
    exact lt_min (lt_mul_of_one_lt_right hr hf) hlt
  · intro h hge
    have hcd : computeDirection prob st recalc = none :=
      Option.isNone_iff_eq_none.mp h
    simp only [regRetry]
    rw [hcd]
    simp [hge]
  · intro h
    have hr : regRetry prob p regRetryFuel true st = none :=
      Option.isNone_iff_eq_none.mp h
    simp only [solveLoop]
    rw [hr]

/-- Witness for C1: on the indefinite-Hessian problem `probB` the
backward pass fails; below the maximum the retry restarts with a strictly
larger level, and at the maximum (`stateB.reg = paramsW.regmax`) the
retry loop and the solve loop report non-convergence.  On the
well-conditioned problem `probW` the stored control-control blocks pass
the positive-definite test. -/
theorem backwardPass_factorization_protocol_witness :
    bwdQuuOk probW xsW usW [0, 0] (1 / 10) 1 = true ∧
    (regRetry probB paramsW 6 true stateW =
       regRetry probB paramsW 5 false
         { stateW with reg := increaseRegularization paramsW stateW.reg } ∧
     stateW.reg < increaseRegularization paramsW stateW.reg) ∧
    regRetry probB paramsW 1 true stateB = none ∧
    solveLoop probB paramsW 1 stateB = (false, stateB) :=
  ⟨(backwardPass_factorization_protocol probW paramsW stateW true 0 1 xsW usW
      [0, 0] (1 / 10)).1,
   (backwardPass_factorization_protocol probB paramsW stateW true 5 0 [] []
      [] 0).2.1 (by with_unfolding_all decide) (by with_unfolding_all decide)
      (by with_unfolding_all decide) (by with_unfolding_all decide),
   (backwardPass_factorization_protocol probB paramsW stateB true 0 0 [] []
      [] 0).2.2.1 (by with_unfolding_all decide) (by with_unfolding_all decide),
   (backwardPass_factorization_protocol probB paramsW stateB true 0 0 [] []
      [] 0).2.2.2 (by with_unfolding_all decide)⟩

/-- The symmetrization of a matrix is symmetric. -/
theorem symmetrize_isSymm {n : ℕ} (M : Mat n n) :
    (symmetrize M).transpose = symmetrize M := by
  unfold symmetrize
  rw [Matrix.transpose_smul, Matrix.transpose_add, Matrix.transpose_transpose,
    add_comm]

theorem bwdRec_Vxx_symm {nx nu : ℕ} (prob : ShootingProblem nx nu)
    (xs : List (Vec nx)) (us : List (Vec nu)) (gaps : List (Vec nx))
    (reg : ℚ)
    (hT : (prob.LxxT (xs.getD prob.T 0)).transpose =
      prob.LxxT (xs.getD prob.T 0)) (n : ℕ) (acc : BwdAcc nx nu)
    (h : bwdRec prob xs us gaps reg n = some acc) :
    ∀ M ∈ acc.Vxx, M.transpose = M := by
  induction n generalizing acc with
  | zero =>
      simp only [bwdRec, Option.some.injEq] at h
      subst h
      intro M hM
      simp only [List.mem_singleton] at hM
      subst hM
      exact hT
  | succ n ih =>
      unfold bwdRec at h
      cases hb : bwdRec prob xs us gaps reg n with
      | none => rw [hb] at h; exact absurd h (by simp)
      | some acc0 =>
          rw [hb] at h
          simp only [Option.some_bind] at h
          have ha0 := ih acc0 hb
          simp only [bwdStep] at h
          split at h
          · next hpd =>
              cases h
              intro M hM
              rcases List.mem_cons.mp hM with hM | hM
              · subst hM; exact symmetrize_isSymm _
              · exact ha0 M hM
          · exact absurd h (by simp)

/-- C7: after every successful backward pass, the stored value-function
Hessian is symmetric at every stage — the pass symmetrizes each Riccati
update, and the terminal Hessian is symmetric by the provider's contract
on cost Hessians. -/
theorem Vxx_symmetric_after_backwardPass {nx nu : ℕ}
    (prob : ShootingProblem nx nu) (st st' : DDPState nx nu) (recalc : Bool)
    (hsym : ∀ x, (prob.LxxT x).transpose = prob.LxxT x)
    (h : computeDirection prob st recalc = some st') :
    ∀ i : ℕ, (st'.Vxx.getD i 0).transpose = st'.Vxx.getD i 0 := by
  simp only [computeDirection] at h
  cases hb : bwdFull prob (precalc prob st recalc).xs
      (precalc prob st recalc).us (precalc prob st recalc).gaps
      (precalc prob st recalc).reg with
  | none => rw [hb] at h; exact absurd h (by simp)
  | some acc =>
      rw [hb] at h
      have hall := bwdRec_Vxx_symm prob (precalc prob st recalc).xs
        (precalc prob st recalc).us (precalc prob st recalc).gaps
        (precalc prob st recalc).reg (hsym _) prob.T acc hb
      cases h
      intro i
      by_cases hi : i < acc.Vxx.length
      · rw [List.getD_eq_getElem _ _ hi]
        exact hall _ (List.getElem_mem hi)
      · rw [List.getD_eq_default _ _ (le_of_not_lt hi)]
        exact Matrix.transpose_zero

/-- Witness for C7: the concrete state after one backward pass on `probW`
has a symmetric value Hessian at stage `0`. -/
theorem Vxx_symmetric_after_backwardPass_witness :
    (stateW1.Vxx.getD 0 0).transpose = stateW1.Vxx.getD 0 0 :=
  Vxx_symmetric_after_backwardPass probW stateW stateW1 true
    (fun x => by
      funext i j
      rw [Matrix.transpose_apply, Subsingleton.elim i j])
    (by with_unfolding_all rfl) 0

theorem lineSearch_some_spec {nx nu : ℕ} (prob : ShootingProblem nx nu)
    (p : DDPParams) (st : DDPState nx nu) (l : List ℚ) (a : ℚ)
    (st' : DDPState nx nu) (h : lineSearch prob p st l = some (a, st')) :
    ∃ l1 l2, l = l1 ++ a :: l2 ∧
      (∀ b ∈ l1, lsAccept prob p st b = false) ∧
      lsAccept prob p st a = true ∧ st' = (tryStepOp prob st a).2 := by
  induction l with
  | nil => exact absurd h (by simp [lineSearch])
  | cons b bs ih =>
      simp only [lineSearch] at h
      by_cases hacc : lsAccept prob p st b = true
      · rw [if_pos hacc] at h
        simp only [Option.some.injEq, Prod.mk.injEq] at h
        obtain ⟨hba, hst⟩ := h
        subst hba
        exact ⟨[], bs, rfl, by simp, hacc, hst.symm⟩
      · rw [if_neg hacc] at h
        rcases ih h with ⟨l1, l2, hl, hprev, hx, hst⟩
        refine ⟨b :: l1, l2, by simp [hl], ?_, hx, hst⟩
        intro c hc
        rcases List.mem_cons.mp hc with hc | hc
        · subst hc; exact Bool.not_eq_true _ ▸ (by simpa using hacc)
        · exact hprev c hc

theorem lineSearch_none_spec {nx nu : ℕ} (prob : ShootingProblem nx nu)
    (p : DDPParams) (st : DDPState nx nu) (l : List ℚ)
    (h : lineSearch prob p st l = none) :
    ∀ b ∈ l, lsAccept prob p st b = false := by
  induction l with
  | nil => intro b hb; exact absurd hb (by simp)
  | cons b bs ih =>
      simp only [lineSearch] at h
      by_cases hacc : lsAccept prob p st b = true
      · rw [if_pos hacc] at h; exact absurd h (by simp)
      · rw [if_neg hacc] at h
        intro c hc
        rcases List.mem_cons.mp hc with hc | hc
        · subst hc; simpa using hacc
        · exact ih h c hc

/-- C5: the default line-search schedule is a fixed descending sequence
tried largest first, and the search accepts exactly the first step length
of the schedule whose trial is acceptable — returning its trial state —
or reports exhaustion when no step length is accepted. -/
theorem lineSearch_first_acceptable {nx nu : ℕ}
    (prob : ShootingProblem nx nu) (p : DDPParams) (st : DDPState nx nu)
    (l : List ℚ) (a : ℚ) (st' : DDPState nx nu) :
    List.Chain' (fun x y : ℚ => y < x) defaultParams.alphas ∧
    (lineSearch prob p st l = some (a, st') →
      ∃ l1 l2, l = l1 ++ a :: l2 ∧
        (∀ b ∈ l1, lsAccept prob p st b = false) ∧
        lsAccept prob p st a = true ∧ st' = (tryStepOp prob st a).2) ∧
    (lineSearch prob p st l = none → ∀ b ∈ l, lsAccept prob p st b = false) := by
  refine ⟨?_, lineSearch_some_spec prob p st l a st',
    lineSearch_none_spec prob p st l⟩
  show List.Chain' (fun x y : ℚ => y < x)
    ((List.range 10).map fun j => ((2 : ℚ)⁻¹) ^ j)
  rw [List.chain'_map, List.chain'_range_succ]
  intro m hm
  exact pow_lt_pow_right_of_lt_one₀ (by norm_num) (by norm_num) (Nat.lt_succ_self m)

/-- Witness for C5: on `probW` with `paramsW` the first step length `1`
is accepted from `stateW`; with the unreachable acceptance thresholds of
`paramsR` the whole schedule is rejected. -/
theorem lineSearch_first_acceptable_witness :
    (∃ l1 l2, paramsW.alphas = l1 ++ (1 : ℚ) :: l2 ∧
      (∀ b ∈ l1, lsAccept probW paramsW stateW b = false) ∧
      lsAccept probW paramsW stateW 1 = true ∧
      (tryStepOp probW stateW 1).2 = (tryStepOp probW stateW 1).2) ∧
    (∀ b ∈ paramsR.alphas, lsAccept probW paramsR stateW b = false) :=
  ⟨(lineSearch_first_acceptable probW paramsW stateW paramsW.alphas 1
      (tryStepOp probW stateW 1).2).2.1 (by with_unfolding_all rfl),
   (lineSearch_first_acceptable probW paramsR stateW paramsR.alphas 0
      stateW).2.2 (by with_unfolding_all rfl)⟩

/-- C4: when the line-search schedule is exhausted, the outer iteration
leaves the current trajectory and cost unchanged; the only state change
is an increase of the regularization level for the next outer iteration. -/
theorem exhausted_lineSearch_preserves_state {nx nu : ℕ}
    (prob : ShootingProblem nx nu) (p : DDPParams) (st : DDPState nx nu)
    (h : (lineSearch prob p st p.alphas).isNone = true) :
    outerBody prob p st = { st with reg := increaseRegularization p st.reg } ∧
    (outerBody prob p st).xs = st.xs ∧
    (outerBody prob p st).us = st.us ∧
    (outerBody prob p st).cost = st.cost ∧
    (outerBody prob p st).reg = increaseRegularization p st.reg := by
  have hn := Option.isNone_iff_eq_none.mp h
  have h1 : outerBody prob p st =
      { st with reg := increaseRegularization p st.reg } := by
    simp [outerBody, hn]
  exact ⟨h1, by rw [h1], by rw [h1], by rw [h1], by rw [h1]⟩

/-- Witness for C4: with the unreachable thresholds of `paramsR` the
search from `stateW` is exhausted and the iteration only raises the
regularization. -/
theorem exhausted_lineSearch_preserves_state_witness :
    outerBody probW paramsR stateW =
      { stateW with reg := increaseRegularization paramsR stateW.reg } ∧
    (outerBody probW paramsR stateW).xs = stateW.xs ∧
    (outerBody probW paramsR stateW).us = stateW.us ∧
    (outerBody probW paramsR stateW).cost = stateW.cost ∧
    (outerBody probW paramsR stateW).reg =
      increaseRegularization paramsR stateW.reg :=
  exhausted_lineSearch_preserves_state probW paramsR stateW
    (by with_unfolding_all decide)

/-- C6: for every step length tried by the forward pass, the expected
improvement used for acceptance is `linear·alpha + 0.5·quadratic·alpha²`
where the pair is exactly the one accumulated by the most recent backward
pass, and the actual improvement returned by `tryStep` is the current
cost minus the trial cost. -/
theorem expectedImprovement_formula {nx nu : ℕ}
    (prob : ShootingProblem nx nu) (p : DDPParams) (st st' : DDPState nx nu)
    (recalc : Bool) (a : ℚ) :
    (computeDirection prob st recalc = some st' →
      ∃ acc, bwdFull prob (precalc prob st recalc).xs
          (precalc prob st recalc).us (precalc prob st recalc).gaps
          (precalc prob st recalc).reg = some acc ∧
        st'.d = (acc.d1, acc.d2)) ∧
    lsAccept prob p st a =
      stepAccepted p (stopOf st) (expImp st.d a)
        (st.cost - (tryStepRun prob st a).1) ∧
    expImp st.d a = a * st.d.1 + (2 : ℚ)⁻¹ * a ^ 2 * st.d.2 ∧
    (tryStepOp prob st a).1 = st.cost - (tryStepOp prob st a).2.cost_try := by
  refine ⟨?_, rfl, rfl, rfl⟩
  intro h
  simp only [computeDirection] at h
  cases hb : bwdFull prob (precalc prob st recalc).xs
      (precalc prob st recalc).us (precalc prob st recalc).gaps
      (precalc prob st recalc).reg with
  | none => rw [hb] at h; exact absurd h (by simp)
  | some acc =>
      rw [hb] at h
      cases h
      exact ⟨acc, rfl, rfl⟩

/-- Witness for C6: instantiated on `probW` after the concrete backward
pass that produces `stateW1`. -/
theorem expectedImprovement_formula_witness :
    (∃ acc, bwdFull probW (precalc probW stateW true).xs
        (precalc probW stateW true).us (precalc probW stateW true).gaps
        (precalc probW stateW true).reg = some acc ∧
      stateW1.d = (acc.d1, acc.d2)) ∧
    lsAccept probW paramsW stateW1 1 =
      stepAccepted paramsW (stopOf stateW1) (expImp stateW1.d 1)
        (stateW1.cost - (tryStepRun probW stateW1 1).1) ∧
    expImp stateW1.d 1 =
      1 * stateW1.d.1 + (2 : ℚ)⁻¹ * 1 ^ 2 * stateW1.d.2 ∧
    (tryStepOp probW stateW1 1).1 =
      stateW1.cost - (tryStepOp probW stateW1 1).2.cost_try :=
  ⟨(expectedImprovement_formula probW paramsW stateW stateW1 true 1).1
      (by with_unfolding_all rfl),
   (expectedImprovement_formula probW paramsW stateW1 stateW1 true 1).2.1,
   (expectedImprovement_formula probW paramsW stateW1 stateW1 true 1).2.2.1,
   (expectedImprovement_formula probW paramsW stateW1 stateW1 true 1).2.2.2⟩

theorem tryStepRun_cost_eval {nx nu : ℕ} (prob : ShootingProblem nx nu)
    (st : DDPState nx nu) (a : ℚ) :
    (tryStepRun prob st a).1 =
      totalCost prob (tryStepRun prob st a).2.1 (tryStepRun prob st a).2.2 :=
  rfl

theorem accepted_cost_le {nx nu : ℕ} (prob : ShootingProblem nx nu)
    (p : DDPParams) (st : DDPState nx nu) (a : ℚ)
    (hacc : lsAccept prob p st a = true) (hts : 0 ≤ p.th_acceptstep)
    (htol : 0 ≤ p.th_tol) :
    (tryStepRun prob st a).1 ≤ st.cost + p.th_tol := by
  unfold lsAccept stepAccepted at hacc
  simp only [Bool.or_eq_true, Bool.and_eq_true, decide_eq_true_eq] at hacc
  rcases hacc with ⟨h1, h2⟩ | ⟨⟨_, _⟩, h5⟩
  · have h0 : 0 ≤ p.th_acceptstep * expImp st.d a := mul_nonneg hts h1.le
    linarith
  · linarith

theorem computeDirection_some_fields {nx nu : ℕ}
    (prob : ShootingProblem nx nu) (st : DDPState nx nu) (recalc : Bool)
    (st' : DDPState nx nu) (h : computeDirection prob st recalc = some st') :
    st'.xs = st.xs ∧ st'.us = st.us ∧ st'.reg = st.reg ∧
    st'.feasible = st.feasible ∧ st'.xs_try = st.xs_try ∧
    st'.us_try = st.us_try ∧
    (CostConsistent prob st → st'.cost = st.cost ∧ CostConsistent prob st') := by
  simp only [computeDirection] at h
  cases hb : bwdFull prob (precalc prob st recalc).xs
      (precalc prob st recalc).us (precalc prob st recalc).gaps
      (precalc prob st recalc).reg with
  | none => rw [hb] at h; exact absurd h (by simp)
  | some acc =>
      rw [hb] at h
      cases h
      cases recalc with
      | false => exact ⟨rfl, rfl, rfl, rfl, rfl, rfl, fun hcc => ⟨rfl, hcc⟩⟩
      | true =>
          refine ⟨rfl, rfl, rfl, rfl, rfl, rfl, fun hcc => ⟨hcc.symm, ?_⟩⟩
          unfold CostConsistent
          rfl

theorem regRetry_preserves {nx nu : ℕ} (prob : ShootingProblem nx nu)
    (p : DDPParams) (fuel : ℕ) (recalc : Bool) (st st1 : DDPState nx nu)
    (h : regRetry prob p fuel recalc st = some st1) :
    st1.xs = st.xs ∧ st1.us = st.us ∧ st1.feasible = st.feasible ∧
    st1.xs_try = st.xs_try ∧ st1.us_try = st.us_try ∧
    (CostConsistent prob st → st1.cost = st.cost ∧ CostConsistent prob st1) := by
  induction fuel generalizing recalc st with
  | zero => exact absurd h (by simp [regRetry])
  | succ fuel ih =>
      simp only [regRetry] at h
      cases hcd : computeDirection prob st recalc with
      | some st2 =>
          rw [hcd] at h
          simp only [Option.some.injEq] at h
          subst h
          obtain ⟨h1, h2, _, h4, h5, h6, h7⟩ :=
            computeDirection_some_fields prob st recalc _ hcd
          exact ⟨h1, h2, h4, h5, h6, h7⟩
      | none =>
          rw [hcd] at h
          by_cases hge : p.regmax ≤ st.reg
          · rw [if_pos hge] at h; exact absurd h (by simp)
          · rw [if_neg hge] at h
            have hp := ih false _ h
            refine ⟨hp.1, hp.2.1, hp.2.2.1, hp.2.2.2.1, hp.2.2.2.2.1, ?_⟩
            intro hcc
            have hcc2 : CostConsistent prob
                { st with reg := increaseRegularization p st.reg } := hcc
            exact hp.2.2.2.2.2 hcc2

theorem outerBody_cost_le {nx nu : ℕ} (prob : ShootingProblem nx nu)
    (p : DDPParams) (st : DDPState nx nu) (hts : 0 ≤ p.th_acceptstep)
    (htol : 0 ≤ p.th_tol) :
    (outerBody prob p st).cost ≤ st.cost + p.th_tol ∧
    (CostConsistent prob st → CostConsistent prob (outerBody prob p st)) := by
  unfold outerBody
  cases hls : lineSearch prob p st p.alphas with
  | none =>
      refine ⟨by simpa using htol, fun hcc => ?_⟩
      exact hcc
  | some r =>
      obtain ⟨a, st'⟩ := r
      rcases lineSearch_some_spec prob p st p.alphas a st' hls with
        ⟨l1, l2, _, _, hacc, hst⟩
      subst hst
      constructor
      · simpa [acceptStep, tryStepOp] using
          accepted_cost_le prob p st a hacc hts htol
      · intro _
        unfold CostConsistent
        simp only [acceptStep, tryStepOp]
        exact tryStepRun_cost_eval prob st a

theorem solveLoop_cost_le {nx nu : ℕ} (prob : ShootingProblem nx nu)
    (p : DDPParams) (n : ℕ) (st : DDPState nx nu) (hts : 0 ≤ p.th_acceptstep)
    (htol : 0 ≤ p.th_tol) (hcc : CostConsistent prob st) :
    (solveLoop prob p n st).2.cost ≤ st.cost + n * p.th_tol := by
  induction n generalizing st with
  | zero => simp [solveLoop]
  | succ n ih =>
      cases hr : regRetry prob p regRetryFuel true st with
      | none =>
          have heq : solveLoop prob p (n + 1) st = (false, st) := by
            simp [solveLoop, hr]
          rw [heq]
          have h0 : (0 : ℚ) ≤ ((n : ℚ) + 1) * p.th_tol := by positivity
          push_cast
          linarith
      | some st1 =>
          have heq : solveLoop prob p (n + 1) st =
              if stopOf (outerBody prob p st1) < p.th_stop
              then (true, outerBody prob p st1)
              else solveLoop prob p n (outerBody prob p st1) := by
            simp [solveLoop, hr]
          rw [heq]
          have hp := regRetry_preserves prob p regRetryFuel true st st1 hr
          obtain ⟨hc1, hcc1⟩ := hp.2.2.2.2.2 hcc
          obtain ⟨hob, hobcc⟩ := outerBody_cost_le prob p st1 hts htol
          have hcc2 := hobcc hcc1
          by_cases hstop : stopOf (outerBody prob p st1) < p.th_stop
          · rw [if_pos hstop]
            have hn : (0 : ℚ) ≤ (n : ℚ) * p.th_tol := by positivity
            push_cast
            linarith
          · rw [if_neg hstop]
            have hih := ih (outerBody prob p st1) hcc2
            push_cast at hih ⊢
            linarith

/-- C2: every accepted forward-pass step has trial cost at most the
current cost plus the configured monotonicity tolerance, and consequently
the current cost is non-increasing (up to the accumulated tolerance,
which is zero at the default configuration) across the outer iterations
of `solve`. -/
theorem accepted_step_cost_monotone {nx nu : ℕ}
    (prob : ShootingProblem nx nu) (p : DDPParams) (st st' : DDPState nx nu)
    (l : List ℚ) (a : ℚ) (n : ℕ) :
    (0 ≤ p.th_acceptstep → 0 ≤ p.th_tol →
      lineSearch prob p st l = some (a, st') →
      st'.cost_try ≤ st.cost + p.th_tol) ∧
    (0 ≤ p.th_acceptstep → 0 ≤ p.th_tol → CostConsistent prob st →
      (solveLoop prob p n st).2.cost ≤ st.cost + n * p.th_tol) := by
  constructor
  · intro hts htol hls
    rcases lineSearch_some_spec prob p st l a st' hls with
      ⟨l1, l2, _, _, hacc, hst⟩
    subst hst
    simpa [tryStepOp] using accepted_cost_le prob p st a hacc hts htol
  · intro hts htol hcc
    exact solveLoop_cost_le prob p n st hts htol hcc

/-- Witness for C2: the step length `1` accepted from the concrete
post-backward-pass state `stateW1` does not increase the cost, and one
outer iteration of the loop on `probW` does not increase the cost. -/
theorem accepted_step_cost_monotone_witness :
    ((tryStepOp probW stateW1 1).2.cost_try ≤
      stateW1.cost + paramsW.th_tol) ∧
    (solveLoop probW paramsW 1 stateW).2.cost ≤
      stateW.cost + (1 : ℕ) * paramsW.th_tol :=
  ⟨(accepted_step_cost_monotone probW paramsW stateW1
      (tryStepOp probW stateW1 1).2 paramsW.alphas 1 1).1
      (by with_unfolding_all decide) (by with_unfolding_all decide)
      (by with_unfolding_all rfl),
   (accepted_step_cost_monotone probW paramsW stateW stateW paramsW.alphas 1
      1).2 (by with_unfolding_all decide) (by with_unfolding_all decide)
      (by with_unfolding_all rfl)⟩

theorem fwdFold_lengths {nx nu : ℕ} (prob : ShootingProblem nx nu)
    (st : DDPState nx nu) (a : ℚ) (l : List ℕ)
    (c : Vec nx × Vec nx × List (Vec nx) × List (Vec nu)) :
    (l.foldl (fwdStage prob st a) c).2.2.1.length = c.2.2.1.length + l.length ∧
    (l.foldl (fwdStage prob st a) c).2.2.2.length = c.2.2.2.length + l.length := by
  induction l generalizing c with
  | nil => simp
  | cons t ts ih =>
      simp only [List.foldl_cons, List.length_cons]
      obtain ⟨h1, h2⟩ := ih (fwdStage prob st a c t)
      rw [h1, h2]
      simp only [fwdStage, List.length_cons]
      omega

theorem tryStepRun_lengths {nx nu : ℕ} (prob : ShootingProblem nx nu)
    (st : DDPState nx nu) (a : ℚ) :
    (tryStepRun prob st a).2.1.length = prob.T + 1 ∧
    (tryStepRun prob st a).2.2.length = prob.T := by
  obtain ⟨h1, h2⟩ := fwdFold_lengths prob st a (List.range prob.T)
    (st.xs.getD 0 0 + (if st.feasible then 0 else -(st.gaps.getD 0 0)),
     (if st.feasible then 0 else -(st.gaps.getD 0 0)),
     [st.xs.getD 0 0 + (if st.feasible then 0 else -(st.gaps.getD 0 0))], [])
  constructor
  · simp only [tryStepRun, List.length_reverse]
    rw [h1]
    simp [Nat.add_comm]
  · simp only [tryStepRun, List.length_reverse]
    rw [h2]
    simp

theorem tryStepOp_wf {nx nu : ℕ} (prob : ShootingProblem nx nu)
    (st : DDPState nx nu) (a : ℚ) (hwf : Wf prob st) :
    Wf prob (tryStepOp prob st a).2 := by
  obtain ⟨hx, hu, _, _⟩ := hwf
  obtain ⟨h1, h2⟩ := tryStepRun_lengths prob st a
  exact ⟨hx, hu, h1, h2⟩

theorem outerBody_wf {nx nu : ℕ} (prob : ShootingProblem nx nu)
    (p : DDPParams) (st : DDPState nx nu) (hwf : Wf prob st) :
    Wf prob (outerBody prob p st) := by
  unfold outerBody
  cases hls : lineSearch prob p st p.alphas with
  | none => exact hwf
  | some r =>
      obtain ⟨a, st'⟩ := r
      rcases lineSearch_some_spec prob p st p.alphas a st' hls with
        ⟨l1, l2, _, _, _, hst⟩
      subst hst
      obtain ⟨h1, h2⟩ := tryStepRun_lengths prob st a
      exact ⟨h1, h2, h1, h2⟩

theorem regRetry_wf {nx nu : ℕ} (prob : ShootingProblem nx nu)
    (p : DDPParams) (fuel : ℕ) (recalc : Bool) (st st1 : DDPState nx nu)
    (h : regRetry prob p fuel recalc st = some st1) (hwf : Wf prob st) :
    Wf prob st1 := by
  obtain ⟨hx, hu, hxt, hut⟩ := hwf
  obtain ⟨h1, h2, _, h4, h5, _⟩ := regRetry_preserves prob p fuel recalc st st1 h
  exact ⟨h1 ▸ hx, h2 ▸ hu, h4 ▸ hxt, h5 ▸ hut⟩

theorem solveLoop_wf {nx nu : ℕ} (prob : ShootingProblem nx nu)
    (p : DDPParams) (n : ℕ) (st : DDPState nx nu) (hwf : Wf prob st) :
    Wf prob (solveLoop prob p n st).2 := by
  induction n generalizing st with
  | zero => exact hwf
  | succ n ih =>
      cases hr : regRetry prob p regRetryFuel true st with
      | none =>
          have heq : solveLoop prob p (n + 1) st = (false, st) := by
            simp [solveLoop, hr]
          rw [heq]
          exact hwf
      | some st1 =>
          have heq : solveLoop prob p (n + 1) st =
              if stopOf (outerBody prob p st1) < p.th_stop
              then (true, outerBody prob p st1)
              else solveLoop prob p n (outerBody prob p st1) := by
            simp [solveLoop, hr]
          rw [heq]
          have hwf1 := regRetry_wf prob p regRetryFuel true st st1 hr hwf
          have hwf2 := outerBody_wf prob p st1 hwf1
          by_cases hstop : stopOf (outerBody prob p st1) < p.th_stop
          · rw [if_pos hstop]; exact hwf2
          · rw [if_neg hstop]; exact ih _ hwf2

theorem foldl_rollout_length {nx nu : ℕ} (prob : ShootingProblem nx nu)
    (us : List (Vec nu)) (l : List ℕ) (init : List (Vec nx)) :
    (l.foldl (fun acc t => prob.f t acc.headI (us.getD t 0) :: acc)
      init).length = init.length + l.length := by
  induction l generalizing init with
  | nil => simp
  | cons t ts ih =>
      simp only [List.foldl_cons, List.length_cons]
      rw [ih]
      simp only [List.length_cons]
      omega

theorem rolloutFrom_length {nx nu : ℕ} (prob : ShootingProblem nx nu)
    (us : List (Vec nu)) : (rolloutFrom prob us).length = prob.T + 1 := by
  unfold rolloutFrom
  rw [List.length_reverse, foldl_rollout_length]
  simp [Nat.add_comm]

theorem solve_wf {nx nu : ℕ} (prob : ShootingProblem nx nu) (p : DDPParams)
    (st : DDPState nx nu) (init_xs : List (Vec nx)) (init_us : List (Vec nu))
    (maxiter : ℕ) (is_feasible : Bool) (regInit : ℚ) (hwf : Wf prob st)
    (hxs : init_xs = [] ∨ init_xs.length = prob.T + 1)
    (hus : init_us = [] ∨ init_us.length = prob.T) :
    Wf prob (solve prob p st init_xs init_us maxiter is_feasible regInit).2 := by
  obtain ⟨_, _, hxt, hut⟩ := hwf
  unfold solve
  apply solveLoop_wf
  refine ⟨?_, ?_, hxt, hut⟩
  · cases hxs with
    | inl h =>
        subst h
        simp [rolloutFrom_length]
    | inr h =>
        cases hxe : init_xs.isEmpty with
        | true =>
            rw [List.isEmpty_iff] at hxe
            subst hxe
            simp [rolloutFrom_length]
        | false => simpa [hxe] using h
  · cases hus with
    | inl h => subst h; simp
    | inr h =>
        cases hxe : init_us.isEmpty with
        | true =>
            rw [List.isEmpty_iff] at hxe
            subst hxe
            simp
        | false => simpa [hxe] using h

/-- C8: every mutating operation of the solver — `tryStep`, the backward
pass inside `computeDirection` and its regularization-retry loop, the
outer loop and `solve` — keeps the state-sequence lengths equal to
horizon plus one and the control-sequence lengths equal to the horizon,
for both the current and the trial trajectory. -/
theorem shape_invariants_preserved {nx nu : ℕ}
    (prob : ShootingProblem nx nu) (p : DDPParams) (st st' st1 : DDPState nx nu)
    (a regInit : ℚ) (recalc is_feasible : Bool) (fuel n maxiter : ℕ)
    (init_xs : List (Vec nx)) (init_us : List (Vec nu)) :
    (Wf prob st → Wf prob (tryStepOp prob st a).2) ∧
    (Wf prob st → computeDirection prob st recalc = some st' → Wf prob st') ∧
    (Wf prob st → regRetry prob p fuel recalc st = some st1 → Wf prob st1) ∧
    (Wf prob st → Wf prob (solveLoop prob p n st).2) ∧
    (Wf prob st → init_xs = [] ∨ init_xs.length = prob.T + 1 →
      init_us = [] ∨ init_us.length = prob.T →
      Wf prob (solve prob p st init_xs init_us maxiter is_feasible
        regInit).2) := by
  refine ⟨tryStepOp_wf prob st a, ?_, ?_, solveLoop_wf prob p n st,
    fun hwf hxs hus => solve_wf prob p st init_xs init_us maxiter is_feasible
      regInit hwf hxs hus⟩
  · intro hwf h
    obtain ⟨hx, hu, hxt, hut⟩ := hwf
    obtain ⟨h1, h2, _, _, h5, h6, _⟩ :=
      computeDirection_some_fields prob st recalc st' h
    exact ⟨h1 ▸ hx, h2 ▸ hu, h5 ▸ hxt, h6 ▸ hut⟩
  · intro hwf h
    exact regRetry_wf prob p fuel recalc st st1 h hwf

/-- Witness for C8: the shape invariants hold on the concrete states
produced from `stateW` by a trial step, a backward pass, the retry loop,
one outer iteration and a default `solve`. -/
theorem shape_invariants_preserved_witness :
    Wf probW (tryStepOp probW stateW 1).2 ∧
    Wf probW stateW1 ∧
    Wf probW (solveLoop probW paramsW 1 stateW).2 ∧
    Wf probW (solve probW paramsW stateW).2 :=
  ⟨(shape_invariants_preserved probW paramsW stateW stateW1 stateW1 1
      (1 / 1000000000) true false 1 1 100 [] []).1
      ⟨rfl, rfl, rfl, rfl⟩,
   (shape_invariants_preserved probW paramsW stateW stateW1 stateW1 1
      (1 / 1000000000) true false 1 1 100 [] []).2.1
      ⟨rfl, rfl, rfl, rfl⟩ (by with_unfolding_all rfl),
   (shape_invariants_preserved probW paramsW stateW stateW1 stateW1 1
      (1 / 1000000000) true false 1 1 100 [] []).2.2.2.1
      ⟨rfl, rfl, rfl, rfl⟩,
   (shape_invariants_preserved probW paramsW stateW stateW1 stateW1 1
      (1 / 1000000000) true false 1 1 100 [] []).2.2.2.2
      ⟨rfl, rfl, rfl, rfl⟩ (Or.inl rfl) (Or.inl rfl)⟩

/-- C9: the stationarity measure and the expected-improvement pair are
pure reads of the last backward pass's output: the read operations return
the state unchanged, repeated reads return the same value, and the values
depend only on the backward-pass output fields of the state (the gains
and action-value gradients for the stationarity measure, the cached pair
for the expected improvement), not on any other solver field. -/
theorem reads_are_pure {nx nu : ℕ} (st : DDPState nx nu)
    (a1 : List (Vec nx)) (a2 : List (Vec nu)) (c1 c2 c3 : ℚ) (b1 b2 : Bool)
    (a3 : List (Vec nx)) (a4 : List (Vec nu)) (a5 : List (Vec nx))
    (m1 : List (Mat nx nx)) (v1 : List (Vec nx)) (m2 : List (Mat nx nx))
    (m3 : List (Mat nx nu)) (m4 : List (Mat nu nu)) (v2 : List (Vec nx))
    (m5 : List (Mat nu nx)) (d0 : ℚ × ℚ) :
    (stoppingCriteriaOp st).2 = st ∧
    (expectedImprovementOp st).2 = st ∧
    (stoppingCriteriaOp (stoppingCriteriaOp st).2).1 =
      (stoppingCriteriaOp st).1 ∧
    (expectedImprovementOp (expectedImprovementOp st).2).1 =
      (expectedImprovementOp st).1 ∧
    (stoppingCriteriaOp
      { st with xs := a1, us := a2, cost := c1, reg := c2, feasible := b1,
                was_feasible := b2, cost_try := c3, xs_try := a3,
                us_try := a4, gaps := a5, Vxx := m1, Vx := v1, Qxx := m2,
                Qxu := m3, Quu := m4, Qx := v2, K := m5, d := d0 }).1 =
      (stoppingCriteriaOp st).1 ∧
    (expectedImprovementOp
      { st with xs := a1, us := a2, cost := c1, reg := c2, feasible := b1,
                was_feasible := b2, cost_try := c3, xs_try := a3,
                us_try := a4, gaps := a5, Vxx := m1, Vx := v1, Qxx := m2,
                Qxu := m3, Quu := m4, Qx := v2, K := m5 }).1 =
      (expectedImprovementOp st).1 :=
  ⟨rfl, rfl, rfl, rfl, rfl, rfl⟩

/-- C10: the defaults of the interface — `solve` called without explicit
arguments uses the empty-trajectory sentinel `DEFAULT_VECTOR` for both
initial sequences, an iteration budget of `100`, an infeasible warm start
and an initial regularization of `1e-9`; `tryStep` without an argument
uses step length `1`; `computeDirection` without an argument recomputes
the derivatives (`recalc = true`). -/
theorem interface_defaults {nx nu : ℕ} (prob : ShootingProblem nx nu)
    (p : DDPParams) (st : DDPState nx nu) :
    solve prob p st =
      solve prob p st DEFAULT_VECTOR DEFAULT_VECTOR 100 false
        (1 / 1000000000) ∧
    (DEFAULT_VECTOR : List (Vec nx)) = [] ∧
    tryStepOp prob st = tryStepOp prob st 1 ∧
    computeDirection prob st = computeDirection prob st true :=
  ⟨rfl, rfl, rfl, rfl⟩

end Crocoddyl
